import Mathlib

/-!
Shallow embedding of the Clobber game implementation (src/main.py).

The Python program keeps one mutable `ClobberGame` object holding a
rectangular board of one-character cells, the current player, and the
dimensions.  Here the state is an immutable structure and every mutating
method becomes a function returning the updated state; `make_move` and
`undo_move` additionally return which of the program's caught exceptions
(if any) fired, since they report errors by printing and leaving the
state as it stands.  Python's negative-index list semantics is modelled
explicitly (`pyIdx`), because `make_move`/`undo_move` receive raw integer
pairs.  `math.inf`/`-math.inf` become the top and bottom elements of
`WithBot (WithTop Int)`.
-/

inductive Cell where
  | BLACK
  | WHITE
  | EMPTY
deriving DecidableEq, Repr

open Cell

/-- `DIRECTIONS = [(-1, 0), (1, 0), (0, -1), (0, 1)]` (up, down, left, right). -/
def DIRECTIONS : List (Int × Int) := [(-1, 0), (1, 0), (0, -1), (0, 1)]

abbrev Board := List (List Cell)

/-- A move is a pair of integer coordinate pairs `((i, j), (ni, nj))`. -/
abbrev Move := (Int × Int) × (Int × Int)

structure ClobberGame where
  rows : Nat
  cols : Nat
  board : Board
  current_player : Cell
deriving DecidableEq, Repr

/-- Python list indexing: index `i` into a list of length `n` resolves to
`i` when `0 ≤ i < n`, wraps to `n + i` when `-n ≤ i < 0`, and raises
`IndexError` (here: `none`) otherwise. -/
def pyIdx (n : Nat) (i : Int) : Option Nat :=
  if 0 ≤ i ∧ i < (n : Int) then some i.toNat
  else if -(n : Int) ≤ i ∧ i < 0 then some (i + n).toNat
  else none

def pyGet {α : Type} (l : List α) (i : Int) : Option α :=
  (pyIdx l.length i).bind fun k => l[k]?

def pyGet2 (b : Board) (i j : Int) : Option Cell :=
  (pyGet b i).bind fun row => pyGet row j

/-- `b[i][j] = v` in Python: the row object inside the outer list is
mutated, so the write replaces row `i` of the board. -/
def pySet2 (b : Board) (i j : Int) (v : Cell) : Option Board :=
  (pyIdx b.length i).bind fun ki =>
    (pyIdx (b.getD ki []).length j).map fun kj =>
      b.set ki ((b.getD ki []).set kj v)

/-- In-range cell access used by the generator loops (indices produced by
`range(self.rows)` / `range(self.cols)` are non-negative). -/
def cellAt (b : Board) (i j : Nat) : Option Cell :=
  b[i]?.bind fun row => row[j]?

/-- The neighbour test `board[ni][nj] != player and board[ni][nj] != EMPTY`. -/
def oppAt (b : Board) (player : Cell) (i j : Nat) : Bool :=
  match cellAt b i j with
  | some q => decide (q ≠ player) && decide (q ≠ EMPTY)
  | none => false

/-- `get_legal_moves`: row-major scan of source cells, then the four
directions in `DIRECTIONS` order. -/
def get_legal_moves (g : ClobberGame) (player : Cell) : List Move :=
  (List.range g.rows).flatMap fun i =>
    (List.range g.cols).flatMap fun j =>
      if cellAt g.board i j = some player then
        DIRECTIONS.filterMap fun d =>
          let ni : Int := (i : Int) + d.1
          let nj : Int := (j : Int) + d.2
          if 0 ≤ ni ∧ ni < (g.rows : Int) ∧ 0 ≤ nj ∧ nj < (g.cols : Int) ∧
              oppAt g.board player ni.toNat nj.toNat = true then
            some (((i : Int), (j : Int)), (ni, nj))
          else none
      else []

/-- `switch_player`: `WHITE if current == BLACK else BLACK`. -/
def switch_player (c : Cell) : Cell :=
  if c = BLACK then WHITE else BLACK

/-- Which caught exception (if any) a call to `make_move`/`undo_move` hit. -/
inductive MoveOutcome where
  | ok
  | indexError
  | valueError
deriving DecidableEq, Repr

/-- `make_move`: read `board[i][j]` (possible `IndexError`), reject if it
is not the current player's stone (`ValueError`), write the stone to
`board[ni][nj]` (possible `IndexError`, before any mutation), empty the
source square, switch players.  Both exceptions are caught and leave the
state as it stands at the raise point. -/
def make_move (g : ClobberGame) (move : Move) : ClobberGame × MoveOutcome :=
  let ((i, j), (ni, nj)) := move
  match pyGet2 g.board i j with
  | none => (g, .indexError)
  | some c =>
    if c ≠ g.current_player then (g, .valueError)
    else
      match pySet2 g.board ni nj c with
      | none => (g, .indexError)
      | some b1 =>
        match pySet2 b1 i j EMPTY with
        | none => ({ g with board := b1 }, .indexError)
        | some b2 =>
          ({ g with board := b2, current_player := switch_player g.current_player }, .ok)

/-- `undo_move`: `board[i][j] = board[ni][nj]`, then
`board[ni][nj] = WHITE if board[i][j] == BLACK else BLACK`, then switch
players; `IndexError` is caught at each access. -/
def undo_move (g : ClobberGame) (move : Move) : ClobberGame × MoveOutcome :=
  let ((i, j), (ni, nj)) := move
  match pyGet2 g.board ni nj with
  | none => (g, .indexError)
  | some cap =>
    match pySet2 g.board i j cap with
    | none => (g, .indexError)
    | some b1 =>
      match pyGet2 b1 i j with
      | none => ({ g with board := b1 }, .indexError)
      | some c2 =>
        match pySet2 b1 ni nj (if c2 = BLACK then WHITE else BLACK) with
        | none => ({ g with board := b1 }, .indexError)
        | some b2 =>
          ({ g with board := b2, current_player := switch_player g.current_player }, .ok)

/-- `is_terminal`: no legal moves for BLACK and none for WHITE. -/
def is_terminal (g : ClobberGame) : Bool :=
  (get_legal_moves g BLACK).isEmpty && (get_legal_moves g WHITE).isEmpty

def countOf (b : Board) (c : Cell) : Nat :=
  (b.map (fun row => row.count c)).sum

/-- `evaluate`: material difference from the current player's perspective. -/
def evaluate (g : ClobberGame) : Int :=
  let black_count : Int := countOf g.board BLACK
  let white_count : Int := countOf g.board WHITE
  if g.current_player = BLACK then black_count - white_count
  else white_count - black_count

/-- Search values: integers extended with `-math.inf` (`⊥`) and
`math.inf` (`⊤`). -/
abbrev Score := WithBot (WithTop Int)

def Score.ofInt (z : Int) : Score := ((z : WithTop Int) : Score)

/-- The maximizing loop of `alpha_beta`: running maximum `acc`, running
`alpha`, early `break` once `beta ≤ alpha`.  `f` is the recursive search
at one less depth with `maximizing_player = False`. -/
def abMaxLoop (f : ClobberGame → Score → Score → Score) (g : ClobberGame)
    (beta : Score) : List Move → Score → Score → Score
  | [], acc, _ => acc
  | mv :: rest, acc, alpha =>
    let v := f (make_move g mv).1 alpha beta
    let acc' := max acc v
    let alpha' := max alpha v
    if beta ≤ alpha' then acc' else abMaxLoop f g beta rest acc' alpha'

/-- The minimizing loop of `alpha_beta`. -/
def abMinLoop (f : ClobberGame → Score → Score → Score) (g : ClobberGame)
    (alpha : Score) : List Move → Score → Score → Score
  | [], acc, _ => acc
  | mv :: rest, acc, beta =>
    let v := f (make_move g mv).1 alpha beta
    let acc' := min acc v
    let beta' := min beta v
    if beta' ≤ alpha then acc' else abMinLoop f g alpha rest acc' beta'

/-- `alpha_beta(depth, alpha, beta, maximizing_player)` (the state is the
first argument here so that recursion is on `depth`). -/
def alpha_beta : ClobberGame → Nat → Score → Score → Bool → Score
  | g, 0, _, _, _ => Score.ofInt (evaluate g)
  | g, d + 1, alpha, beta, maximizing_player =>
    if is_terminal g then Score.ofInt (evaluate g)
    else if maximizing_player then
      abMaxLoop (fun s a b => alpha_beta s d a b false) g beta
        (get_legal_moves g g.current_player) ⊥ alpha
    else
      abMinLoop (fun s a b => alpha_beta s d a b true) g alpha
        (get_legal_moves g g.current_player) ⊤ beta

/-- Modelled from the spec: exhaustive unpruned minimax of the same depth
on the same state ("Alpha-beta equals full minimax", section 8.6), with
the same terminal test, evaluation, move generation and `±∞` initial
accumulators, but no `alpha`/`beta` bounds and no pruning. -/
def minimax : ClobberGame → Nat → Bool → Score
  | g, 0, _ => Score.ofInt (evaluate g)
  | g, d + 1, maximizing_player =>
    if is_terminal g then Score.ofInt (evaluate g)
    else if maximizing_player then
      ((get_legal_moves g g.current_player).map
        (fun mv => minimax (make_move g mv).1 d false)).foldl max ⊥
    else
      ((get_legal_moves g g.current_player).map
        (fun mv => minimax (make_move g mv).1 d true)).foldl min ⊤

/-- One iteration of the `ai_move` loop: score the move by
`alpha_beta(depth - 1, -inf, inf, False)` on the applied state and keep
it when it strictly improves `best_value` in the mover's direction. -/
def aiStep (g : ClobberGame) (depth : Nat) (best : Option Move × Score)
    (mv : Move) : Option Move × Score :=
  let move_value := alpha_beta (make_move g mv).1 (depth - 1) ⊥ ⊤ false
  if g.current_player = BLACK ∧ best.2 < move_value then (some mv, move_value)
  else if g.current_player = WHITE ∧ move_value < best.2 then (some mv, move_value)
  else best

/-- `ai_move`: try every legal move in order, keeping the strictly best
one for the mover's direction; the fold mirrors the Python loop (its
`alpha, beta` stay `-inf, inf` throughout, and `best_value` starts at
`-inf` for BLACK, `inf` for WHITE). -/
def ai_move (g : ClobberGame) (depth : Nat) : Option Move :=
  ((get_legal_moves g g.current_player).foldl (aiStep g depth)
    ((none : Option Move), if g.current_player = BLACK then (⊥ : Score) else ⊤)).1

/-- `init_board`: checkerboard fill, BLACK on even `i + j`. -/
def init_board (rows cols : Nat) : Board :=
  (List.range rows).map fun i =>
    (List.range cols).map fun j =>
      if (i + j) % 2 = 0 then BLACK else WHITE

/-- `ClobberGame.__init__` with explicit dimensions. -/
def mkGame (rows cols : Nat) : ClobberGame :=
  { rows := rows, cols := cols, board := init_board rows cols,
    current_player := BLACK }

/-- Well-formedness: the board really is a `rows × cols` grid (true of
every state the program constructs). -/
def WF (g : ClobberGame) : Prop :=
  g.board.length = g.rows ∧ ∀ row ∈ g.board, row.length = g.cols

/-- Total number of stones on the board. -/
def stoneCount (b : Board) : Nat := countOf b BLACK + countOf b WHITE

def opponent (c : Cell) : Cell :=
  match c with
  | BLACK => WHITE
  | WHITE => BLACK
  | EMPTY => EMPTY

/-- The specification's description of a legal move for `p`: the source
holds `p`'s stone, the destination is an in-bounds orthogonal neighbour
of the source and holds the opponent's stone. -/
def isLegalMove (g : ClobberGame) (p : Cell) (mv : Move) : Prop :=
  ∃ a b a2 b2 : Nat,
    mv = (((a : Int), (b : Int)), ((a2 : Int), (b2 : Int))) ∧
    a < g.rows ∧ b < g.cols ∧ a2 < g.rows ∧ b2 < g.cols ∧
    cellAt g.board a b = some p ∧
    cellAt g.board a2 b2 = some (opponent p) ∧
    ((a2 = a ∧ (b2 = b + 1 ∨ b = b2 + 1)) ∨
      (b2 = b ∧ (a2 = a + 1 ∨ a = a2 + 1)))

/-- Index of a direction in the generation order up, down, left, right. -/
def dirIdx (d : Int × Int) : Nat :=
  if d = (-1, 0) then 0 else if d = (1, 0) then 1 else if d = (0, -1) then 2 else 3

/-- Strict enumeration order on moves: row-major on the source cell, then
direction order. -/
def moveLt (m1 m2 : Move) : Prop :=
  m1.1.1 < m2.1.1 ∨ (m1.1.1 = m2.1.1 ∧ (m1.1.2 < m2.1.2 ∨ (m1.1.2 = m2.1.2 ∧
    dirIdx (m1.2.1 - m1.1.1, m1.2.2 - m1.1.2) <
      dirIdx (m2.2.1 - m2.1.1, m2.2.2 - m2.1.2))))

/-- In-range cell write with `Nat` coordinates (what `board[i][j] = v`
does when both indices are non-negative and in range). -/
def setCell (b : Board) (i j : Nat) (v : Cell) : Board :=
  b.set i ((b.getD i []).set j v)

/-- A score that is a plain integer (neither `-inf` nor `inf`). -/
def Score.IsFin (s : Score) : Prop := ∃ z : Int, s = Score.ofInt z

/-- The current player is an actual player, as in every state the
program constructs (`current_player` starts at BLACK and is only ever
toggled between BLACK and WHITE). -/
def isPlayer (c : Cell) : Prop := c = BLACK ∨ c = WHITE

/-- Fail-soft relation between an alpha-beta result `r` and the true
minimax value `v` for a window `(alpha, beta)`: exact inside the window,
an upper bound on `v` when failing low, a lower bound when failing
high. -/
def ABRel (r v alpha beta : Score) : Prop :=
  (alpha < r → r < beta → r = v) ∧ (r ≤ alpha → v ≤ r) ∧ (beta ≤ r → r ≤ v)

/-! ### Index and board-access lemmas -/

theorem pyIdx_coe {n a : Nat} (h : a < n) : pyIdx n (a : Int) = some a := by
  unfold pyIdx
  rw [if_pos ⟨Int.natCast_nonneg a, by exact_mod_cast h⟩]
  simp

theorem pyGet_coe {α : Type} {l : List α} {a : Nat} (h : a < l.length) :
    pyGet l (a : Int) = l[a]? := by
  unfold pyGet
  rw [pyIdx_coe h]
  rfl

theorem cellAt_eq_some {b : Board} {i j : Nat} {q : Cell} :
    cellAt b i j = some q ↔ ∃ row, b[i]? = some row ∧ row[j]? = some q := by
  unfold cellAt
  exact Option.bind_eq_some

theorem pyGet2_of_cellAt {b : Board} {i j : Nat} {q : Cell}
    (h : cellAt b i j = some q) : pyGet2 b (i : Int) (j : Int) = some q := by
  obtain ⟨row, hrow, hq⟩ := cellAt_eq_some.1 h
  have hi : i < b.length := (List.getElem?_eq_some_iff.1 hrow).1
  have hj : j < row.length := (List.getElem?_eq_some_iff.1 hq).1
  unfold pyGet2
  rw [pyGet_coe hi, hrow]
  show pyGet row (j : Int) = some q
  rw [pyGet_coe hj]
  exact hq

theorem getD_of_getElem? {b : Board} {i : Nat} {row : List Cell}
    (h : b[i]? = some row) : b.getD i [] = row := by
  rw [List.getD_eq_getElem?_getD, h]
  rfl

theorem pySet2_coe {b : Board} {i j : Nat} {v : Cell} {q : Cell}
    (h : cellAt b i j = some q) :
    pySet2 b (i : Int) (j : Int) v = some (setCell b i j v) := by
  obtain ⟨row, hrow, hq⟩ := cellAt_eq_some.1 h
  have hi : i < b.length := (List.getElem?_eq_some_iff.1 hrow).1
  have hj : j < row.length := (List.getElem?_eq_some_iff.1 hq).1
  unfold pySet2 setCell
  rw [pyIdx_coe hi]
  show (pyIdx (b.getD i []).length (j : Int)).map _ = _
  rw [getD_of_getElem? hrow, pyIdx_coe hj]
  rfl

theorem length_setCell (b : Board) (i j : Nat) (v : Cell) :
    (setCell b i j v).length = b.length := by
  unfold setCell
  exact List.length_set ..

theorem cellAt_setCell_self {b : Board} {i j : Nat} {q : Cell}
    (h : cellAt b i j = some q) (v : Cell) :
    cellAt (setCell b i j v) i j = some v := by
  obtain ⟨row, hrow, hq⟩ := cellAt_eq_some.1 h
  have hi : i < b.length := (List.getElem?_eq_some_iff.1 hrow).1
  have hj : j < row.length := (List.getElem?_eq_some_iff.1 hq).1
  unfold cellAt setCell
  rw [List.getElem?_set_self hi]
  show ((b.getD i []).set j v)[j]? = some v
  rw [getD_of_getElem? hrow]
  exact List.getElem?_set_self (by simpa using hj)

theorem cellAt_setCell_ne {b : Board} {i j x y : Nat} {v : Cell}
    (hne : i ≠ x ∨ j ≠ y) :
    cellAt (setCell b i j v) x y = cellAt b x y := by
  unfold cellAt setCell
  rcases eq_or_ne i x with rfl | hix
  · have hj : j ≠ y := hne.resolve_left (fun hcon => hcon rfl)
    by_cases hi : i < b.length
    · rw [List.getElem?_set_self hi, List.getElem?_eq_getElem hi]
      show ((b.getD i []).set j v)[y]? = _
      rw [getD_of_getElem? (List.getElem?_eq_getElem hi), List.getElem?_set_ne hj]
      rfl
    · have : b.set i ((b.getD i []).set j v) = b :=
        List.set_eq_of_length_le (by omega)
      rw [this]
  · rw [List.getElem?_set_ne hix]

theorem set_getElem_self {α : Type} {l : List α} {i : Nat} {r : α}
    (h : l[i]? = some r) : l.set i r = l := by
  induction l generalizing i with
  | nil => simp at h
  | cons x xs ih =>
    cases i with
    | zero => simp_all
    | succ n =>
      simp only [List.getElem?_cons_succ] at h
      simp [List.set, ih h]

theorem setCell_cellAt_self {b : Board} {i j : Nat} {q : Cell}
    (h : cellAt b i j = some q) : setCell b i j q = b := by
  obtain ⟨row, hrow, hq⟩ := cellAt_eq_some.1 h
  unfold setCell
  rw [getD_of_getElem? hrow, set_getElem_self hq, set_getElem_self hrow]

theorem getD_set_self {b : Board} {i : Nat} {r : List Cell} (hi : i < b.length) :
    (b.set i r).getD i [] = r := by
  rw [List.getD_eq_getElem?_getD, List.getElem?_set_self hi]
  rfl

theorem getD_set_ne {b : Board} {i x : Nat} {r : List Cell} (h : i ≠ x) :
    (b.set i r).getD x [] = b.getD x [] := by
  rw [List.getD_eq_getElem?_getD, List.getElem?_set_ne h, ← List.getD_eq_getElem?_getD]

theorem setCell_setCell_self {b : Board} (i j : Nat) (u v : Cell)
    (hi : i < b.length) :
    setCell (setCell b i j u) i j v = setCell b i j v := by
  unfold setCell
  rw [getD_set_self hi, List.set_set, List.set_set]

theorem setCell_comm {b : Board} {i j x y : Nat} {u v : Cell}
    (hne : i ≠ x ∨ j ≠ y) (hi : i < b.length) (hx : x < b.length) :
    setCell (setCell b i j u) x y v = setCell (setCell b x y v) i j u := by
  rcases eq_or_ne i x with rfl | hix
  · have hj : j ≠ y := hne.resolve_left (fun hcon => hcon rfl)
    unfold setCell
    rw [getD_set_self hi, getD_set_self hi, List.set_set, List.set_set,
      List.set_comm _ _ _ hj]
  · unfold setCell
    rw [getD_set_ne hix, getD_set_ne (Ne.symm hix), List.set_comm _ _ _ hix]

/-! ### Counting lemmas -/

theorem sum_map_set {f : List Cell → Nat} {b : Board} {i : Nat} {r : List Cell}
    (hi : i < b.length) :
    ((b.set i r).map f).sum + f (b.getD i []) = (b.map f).sum + f r := by
  induction b generalizing i with
  | nil => simp at hi
  | cons x xs ih =>
    cases i with
    | zero =>
      simp only [List.set, List.map_cons, List.sum_cons, List.getD_cons_zero]
      omega
    | succ n =>
      have hn : n < xs.length := by simpa using hi
      have := ih hn
      simp only [List.set, List.map_cons, List.sum_cons, List.getD_cons_succ]
      omega

theorem count_set_add {l : List Cell} {j : Nat} {q : Cell}
    (h : l[j]? = some q) (v c : Cell) :
    (l.set j v).count c + (if q = c then 1 else 0)
      = l.count c + (if v = c then 1 else 0) := by
  induction l generalizing j with
  | nil => simp at h
  | cons x xs ih =>
    cases j with
    | zero =>
      simp only [List.getElem?_cons_zero, Option.some_inj] at h
      subst h
      simp only [List.set, List.count_cons, beq_iff_eq]
      omega
    | succ n =>
      simp only [List.getElem?_cons_succ] at h
      have := ih h
      simp only [List.set, List.count_cons, beq_iff_eq]
      omega

theorem countOf_setCell {b : Board} {i j : Nat} {q : Cell}
    (h : cellAt b i j = some q) (v c : Cell) :
    countOf (setCell b i j v) c + (if q = c then 1 else 0)
      = countOf b c + (if v = c then 1 else 0) := by
  obtain ⟨row, hrow, hq⟩ := cellAt_eq_some.1 h
  have hi : i < b.length := (List.getElem?_eq_some_iff.1 hrow).1
  have hs := sum_map_set (f := fun r => r.count c) (b := b) (i := i)
    (r := row.set j v) hi
  rw [getD_of_getElem? hrow] at hs
  simp only [] at hs
  have hc := count_set_add hq v c
  unfold countOf setCell
  rw [getD_of_getElem? hrow]
  omega

/-! ### Characterization of the move generator -/

theorem mem_get_legal_moves {g : ClobberGame} {p : Cell} {mv : Move} :
    mv ∈ get_legal_moves g p ↔
      ∃ (a b : Nat) (d : Int × Int), d ∈ DIRECTIONS ∧
        a < g.rows ∧ b < g.cols ∧
        cellAt g.board a b = some p ∧
        0 ≤ (a : Int) + d.1 ∧ (a : Int) + d.1 < (g.rows : Int) ∧
        0 ≤ (b : Int) + d.2 ∧ (b : Int) + d.2 < (g.cols : Int) ∧
        oppAt g.board p ((a : Int) + d.1).toNat ((b : Int) + d.2).toNat = true ∧
        mv = (((a : Int), (b : Int)), ((a : Int) + d.1, (b : Int) + d.2)) := by
  unfold get_legal_moves
  simp only [List.mem_flatMap, List.mem_range, List.mem_ite_nil_right,
    List.mem_filterMap, Option.ite_none_right_eq_some, Option.some_inj]
  constructor
  · rintro ⟨a, ha, b, hb, hc, d, hd, ⟨h1, h2, h3, h4, h5⟩, rfl⟩
    exact ⟨a, b, d, hd, ha, hb, hc, h1, h2, h3, h4, h5, rfl⟩
  · rintro ⟨a, b, d, hd, ha, hb, hc, h1, h2, h3, h4, h5, rfl⟩
    exact ⟨a, ha, b, hb, hc, d, hd, ⟨h1, h2, h3, h4, h5⟩, rfl⟩

theorem oppAt_iff {b : Board} {p : Cell} {i j : Nat} :
    oppAt b p i j = true ↔ ∃ q, cellAt b i j = some q ∧ q ≠ p ∧ q ≠ EMPTY := by
  unfold oppAt
  cases h : cellAt b i j <;> simp

theorem ne_iff_opponent {p q : Cell} (hp : isPlayer p) :
    q ≠ p ∧ q ≠ EMPTY ↔ q = opponent p := by
  rcases hp with rfl | rfl <;> cases q <;> simp [opponent]

theorem get_legal_moves_iff_spec {g : ClobberGame} {p : Cell} (hp : isPlayer p)
    {mv : Move} : mv ∈ get_legal_moves g p ↔ isLegalMove g p mv := by
  rw [mem_get_legal_moves]
  constructor
  · rintro ⟨a, b, d, hd, ha, hb, hc, h1, h2, h3, h4, h5, rfl⟩
    obtain ⟨q, hq, hq1, hq2⟩ := oppAt_iff.1 h5
    have hqo : q = opponent p := (ne_iff_opponent hp).1 ⟨hq1, hq2⟩
    subst hqo
    refine ⟨a, b, ((a : Int) + d.1).toNat, ((b : Int) + d.2).toNat,
      ?_, ha, hb, by omega, by omega, hc, hq, ?_⟩
    · rw [Int.toNat_of_nonneg h1, Int.toNat_of_nonneg h3]
    · simp only [DIRECTIONS, List.mem_cons, List.not_mem_nil, or_false] at hd
      rcases hd with rfl | rfl | rfl | rfl <;> simp_all <;> omega
  · rintro ⟨a, b, a2, b2, rfl, ha, hb, ha2, hb2, hc, hc2, hadj⟩
    have hop : oppAt g.board p a2 b2 = true :=
      oppAt_iff.2 ⟨opponent p, hc2, (ne_iff_opponent hp).2 rfl⟩
    rcases hadj with ⟨heq, hbb | hbb⟩ | ⟨heq, haa | haa⟩
    · refine ⟨a, b, (0, 1), by simp [DIRECTIONS], ha, hb, hc,
        by dsimp only; omega, by dsimp only; omega, by dsimp only; omega,
        by dsimp only; omega, ?_, ?_⟩
      · have e1 : ((a : Int) + (0, 1).1).toNat = a2 := by omega
        have e2 : ((b : Int) + (0, 1).2).toNat = b2 := by omega
        rw [e1, e2]; exact hop
      · simp only [Prod.mk.injEq, true_and]
        omega
    · refine ⟨a, b, (0, -1), by simp [DIRECTIONS], ha, hb, hc,
        by dsimp only; omega, by dsimp only; omega, by dsimp only; omega,
        by dsimp only; omega, ?_, ?_⟩
      · have e1 : ((a : Int) + (0, -1).1).toNat = a2 := by omega
        have e2 : ((b : Int) + (0, -1).2).toNat = b2 := by omega
        rw [e1, e2]; exact hop
      · simp only [Prod.mk.injEq, true_and]
        omega
    · refine ⟨a, b, (1, 0), by simp [DIRECTIONS], ha, hb, hc,
        by dsimp only; omega, by dsimp only; omega, by dsimp only; omega,
        by dsimp only; omega, ?_, ?_⟩
      · have e1 : ((a : Int) + (1, 0).1).toNat = a2 := by omega
        have e2 : ((b : Int) + (1, 0).2).toNat = b2 := by omega
        rw [e1, e2]; exact hop
      · simp only [Prod.mk.injEq, true_and]
        omega
    · refine ⟨a, b, (-1, 0), by simp [DIRECTIONS], ha, hb, hc,
        by dsimp only; omega, by dsimp only; omega, by dsimp only; omega,
        by dsimp only; omega, ?_, ?_⟩
      · have e1 : ((a : Int) + (-1, 0).1).toNat = a2 := by omega
        have e2 : ((b : Int) + (-1, 0).2).toNat = b2 := by omega
        rw [e1, e2]; exact hop
      · simp only [Prod.mk.injEq, true_and]
        omega

theorem dir_delta (a b : Nat) (d : Int × Int) :
    (((a : Int) + d.1) - (a : Int), ((b : Int) + d.2) - (b : Int)) = d := by
  cases d with
  | mk x y => simp

theorem pairwise_dirIdx :
    List.Pairwise (fun d1 d2 : Int × Int => dirIdx d1 < dirIdx d2) DIRECTIONS := by
  decide

theorem get_legal_moves_pairwise (g : ClobberGame) (p : Cell) :
    List.Pairwise moveLt (get_legal_moves g p) := by
  unfold get_legal_moves
  rw [List.pairwise_flatMap]
  constructor
  · intro a _
    rw [List.pairwise_flatMap]
    constructor
    · intro b _
      split
      · rw [List.pairwise_filterMap]
        refine pairwise_dirIdx.imp ?_
        intro d1 d2 hlt x hx y hy
        simp only [Option.mem_def, Option.ite_none_right_eq_some,
          Option.some_inj] at hx hy
        obtain ⟨-, hx⟩ := hx
        obtain ⟨-, hy⟩ := hy
        subst hx
        subst hy
        refine Or.inr ⟨rfl, Or.inr ⟨rfl, ?_⟩⟩
        rw [dir_delta, dir_delta]
        exact hlt
      · exact List.Pairwise.nil
    · refine (List.pairwise_lt_range g.cols).imp ?_
      intro b1 b2 hlt x hx y hy
      simp only [List.mem_ite_nil_right, List.mem_filterMap,
        Option.ite_none_right_eq_some, Option.some_inj] at hx hy
      obtain ⟨-, d1, -, -, hx⟩ := hx
      obtain ⟨-, d2, -, -, hy⟩ := hy
      subst hx
      subst hy
      exact Or.inr ⟨rfl, Or.inl (by dsimp only; exact_mod_cast hlt)⟩
  · refine (List.pairwise_lt_range g.rows).imp ?_
    intro a1 a2 hlt x hx y hy
    simp only [List.mem_flatMap, List.mem_range, List.mem_ite_nil_right,
      List.mem_filterMap, Option.ite_none_right_eq_some, Option.some_inj] at hx hy
    obtain ⟨b1, -, -, d1, -, -, hx⟩ := hx
    obtain ⟨b2, -, -, d2, -, -, hy⟩ := hy
    subst hx
    subst hy
    exact Or.inl (by dsimp only; exact_mod_cast hlt)

/-! ### Applying and undoing a legal move -/

theorem cellAt_lt_length {b : Board} {i j : Nat} {q : Cell}
    (h : cellAt b i j = some q) : i < b.length := by
  obtain ⟨row, hrow, -⟩ := cellAt_eq_some.1 h
  exact (List.getElem?_eq_some_iff.1 hrow).1

theorem switch_switch {c : Cell} (hc : isPlayer c) :
    switch_player (switch_player c) = c := by
  rcases hc with rfl | rfl <;> rfl

theorem switch_eq_opponent {c : Cell} (hc : isPlayer c) :
    switch_player c = opponent c := by
  rcases hc with rfl | rfl <;> rfl

theorem isPlayer_switch (c : Cell) : isPlayer (switch_player c) := by
  cases c <;> simp [switch_player, isPlayer]

theorem opponent_ne {c : Cell} (hc : isPlayer c) : opponent c ≠ c := by
  rcases hc with rfl | rfl <;> simp [opponent]

/-- Exact effect of `make_move` on a legal move of an actual player. -/
theorem make_move_legal {g : ClobberGame} {mv : Move}
    (hcur : isPlayer g.current_player)
    (hm : mv ∈ get_legal_moves g g.current_player) :
    ∃ a b a2 b2 : Nat,
      mv = (((a : Int), (b : Int)), ((a2 : Int), (b2 : Int))) ∧
      a < g.rows ∧ b < g.cols ∧ a2 < g.rows ∧ b2 < g.cols ∧
      (a2 ≠ a ∨ b2 ≠ b) ∧
      cellAt g.board a b = some g.current_player ∧
      cellAt g.board a2 b2 = some (opponent g.current_player) ∧
      make_move g mv =
        ({ g with
            board := setCell (setCell g.board a2 b2 g.current_player) a b EMPTY,
            current_player := switch_player g.current_player }, .ok) := by
  obtain ⟨a, b, a2, b2, rfl, ha, hb, ha2, hb2, hc, hc2, hadj⟩ :=
    (get_legal_moves_iff_spec hcur).1 hm
  have hne : a2 ≠ a ∨ b2 ≠ b := by omega
  refine ⟨a, b, a2, b2, rfl, ha, hb, ha2, hb2, hne, hc, hc2, ?_⟩
  have hb1 : cellAt (setCell g.board a2 b2 g.current_player) a b
      = some g.current_player := by
    rw [cellAt_setCell_ne hne]
    exact hc
  unfold make_move
  dsimp only
  rw [pyGet2_of_cellAt hc]
  simp only [if_neg (not_not_intro rfl)]
  rw [pySet2_coe hc2]
  dsimp only
  rw [pySet2_coe hb1]

theorem undo_write_val {c : Cell} (hc : isPlayer c) :
    (if c = BLACK then WHITE else BLACK) = opponent c := by
  rcases hc with rfl | rfl <;> rfl

/-- Undoing right after applying a legal move restores the state exactly. -/
theorem make_undo_eq {g : ClobberGame} {mv : Move}
    (hcur : isPlayer g.current_player)
    (hm : mv ∈ get_legal_moves g g.current_player) :
    undo_move (make_move g mv).1 mv = (g, .ok) := by
  obtain ⟨a, b, a2, b2, hmv, ha, hb, ha2, hb2, hne, hc, hc2, hmk⟩ :=
    make_move_legal hcur hm
  subst hmv
  have hne' : a ≠ a2 ∨ b ≠ b2 := hne.imp Ne.symm Ne.symm
  have hlena : a < g.board.length := cellAt_lt_length hc
  have hlena2 : a2 < g.board.length := cellAt_lt_length hc2
  have hb1ab : cellAt (setCell g.board a2 b2 g.current_player) a b
      = some g.current_player := by
    rw [cellAt_setCell_ne hne]; exact hc
  have hb1n : cellAt (setCell g.board a2 b2 g.current_player) a2 b2
      = some g.current_player := cellAt_setCell_self hc2 _
  have h2ab : cellAt (setCell (setCell g.board a2 b2 g.current_player) a b EMPTY) a b
      = some EMPTY := cellAt_setCell_self hb1ab _
  have h2n : cellAt (setCell (setCell g.board a2 b2 g.current_player) a b EMPTY) a2 b2
      = some g.current_player := by
    rw [cellAt_setCell_ne hne']; exact hb1n
  have h3ab : cellAt (setCell (setCell (setCell g.board a2 b2 g.current_player) a b EMPTY)
      a b g.current_player) a b = some g.current_player := cellAt_setCell_self h2ab _
  have h3n : cellAt (setCell (setCell (setCell g.board a2 b2 g.current_player) a b EMPTY)
      a b g.current_player) a2 b2 = some g.current_player := by
    rw [cellAt_setCell_ne hne']; exact h2n
  rw [hmk]
  unfold undo_move
  dsimp only
  rw [pyGet2_of_cellAt h2n]
  dsimp only
  rw [pySet2_coe h2ab]
  dsimp only
  rw [pyGet2_of_cellAt h3ab]
  dsimp only
  rw [undo_write_val hcur, pySet2_coe h3n]
  dsimp only
  have hboard : setCell (setCell (setCell (setCell g.board a2 b2 g.current_player)
      a b EMPTY) a b g.current_player) a2 b2 (opponent g.current_player) = g.board := by
    rw [setCell_setCell_self a b EMPTY g.current_player
      (by rw [length_setCell]; exact hlena)]
    rw [setCell_comm hne hlena2 hlena]
    rw [setCell_cellAt_self hc]
    rw [setCell_setCell_self a2 b2 _ _ hlena2]
    exact setCell_cellAt_self hc2
  rw [hboard, switch_switch hcur]

/-- C1: for any state whose current player is an actual player (true of
every reachable state) and any move produced by
`get_legal_moves(current_player)`, executing `make_move` followed by
`undo_move` reproduces the original board contents and `current_player`
exactly. -/
theorem make_undo_roundtrip {g : ClobberGame} {mv : Move}
    (hcur : isPlayer g.current_player)
    (hm : mv ∈ get_legal_moves g g.current_player) :
    (undo_move (make_move g mv).1 mv).1 = g := by
  rw [make_undo_eq hcur hm]

theorem make_undo_roundtrip_witness :
    isPlayer (mkGame 2 2).current_player ∧
    (((0 : Int), (0 : Int)), ((1 : Int), (0 : Int))) ∈
      get_legal_moves (mkGame 2 2) (mkGame 2 2).current_player ∧
    (undo_move (make_move (mkGame 2 2) (((0 : Int), (0 : Int)), ((1 : Int), (0 : Int)))).1
      (((0 : Int), (0 : Int)), ((1 : Int), (0 : Int)))).1 = mkGame 2 2 :=
  ⟨Or.inl rfl, by decide, make_undo_roundtrip (Or.inl rfl) (by decide)⟩

/-- C8: applying a legal move removes exactly one stone from the board,
and the matching `undo_move` restores the original stone count. -/
theorem stone_count_make_undo {g : ClobberGame} {mv : Move}
    (hcur : isPlayer g.current_player)
    (hm : mv ∈ get_legal_moves g g.current_player) :
    stoneCount (make_move g mv).1.board + 1 = stoneCount g.board ∧
    stoneCount (undo_move (make_move g mv).1 mv).1.board = stoneCount g.board := by
  obtain ⟨a, b, a2, b2, hmv, -, -, -, -, hne, hc, hc2, hmk⟩ := make_move_legal hcur hm
  constructor
  · rw [hmk]
    dsimp only
    have hb1ab : cellAt (setCell g.board a2 b2 g.current_player) a b
        = some g.current_player := by
      rw [cellAt_setCell_ne hne]; exact hc
    have k1B := countOf_setCell hc2 g.current_player BLACK
    have k1W := countOf_setCell hc2 g.current_player WHITE
    have k2B := countOf_setCell hb1ab EMPTY BLACK
    have k2W := countOf_setCell hb1ab EMPTY WHITE
    have e1 : (if opponent g.current_player = BLACK then 1 else 0)
        + (if g.current_player = BLACK then (1 : Nat) else 0) = 1 := by
      rcases hcur with h | h <;> rw [h] <;> simp [opponent]
    have e2 : (if opponent g.current_player = WHITE then 1 else 0)
        + (if g.current_player = WHITE then (1 : Nat) else 0) = 1 := by
      rcases hcur with h | h <;> rw [h] <;> simp [opponent]
    have e5 : (if g.current_player = BLACK then (1 : Nat) else 0)
        + (if g.current_player = WHITE then 1 else 0) = 1 := by
      rcases hcur with h | h <;> rw [h] <;> simp
    have e3 : (if EMPTY = BLACK then (1 : Nat) else 0) = 0 := rfl
    have e4 : (if EMPTY = WHITE then (1 : Nat) else 0) = 0 := rfl
    unfold stoneCount
    omega
  · rw [make_undo_eq hcur hm]

theorem stone_count_make_undo_witness :
    isPlayer (mkGame 2 2).current_player ∧
    (((0 : Int), (0 : Int)), ((1 : Int), (0 : Int))) ∈
      get_legal_moves (mkGame 2 2) (mkGame 2 2).current_player ∧
    (stoneCount (make_move (mkGame 2 2) (((0 : Int), (0 : Int)), ((1 : Int), (0 : Int)))).1.board
        + 1 = stoneCount (mkGame 2 2).board ∧
      stoneCount (undo_move (make_move (mkGame 2 2)
          (((0 : Int), (0 : Int)), ((1 : Int), (0 : Int)))).1
        (((0 : Int), (0 : Int)), ((1 : Int), (0 : Int)))).1.board
        = stoneCount (mkGame 2 2).board) :=
  ⟨Or.inl rfl, by decide, stone_count_make_undo (Or.inl rfl) (by decide)⟩

/-! ### Initial board, ownership check, bounds behaviour -/

theorem init_board_cell (rows cols i j : Nat) (hi : i < rows) (hj : j < cols) :
    cellAt (init_board rows cols) i j
      = some (if (i + j) % 2 = 0 then BLACK else WHITE) := by
  unfold init_board cellAt
  simp [List.getElem?_map, List.getElem?_range, hi, hj]

/-- C9: at construction, every cell of the `rows × cols` board holds
BLACK exactly when `i + j` is even, WHITE otherwise, and never EMPTY. -/
theorem init_board_checkerboard {rows cols : Nat} (hr : 2 ≤ rows) (hc : 2 ≤ cols)
    {i j : Nat} (hi : i < rows) (hj : j < cols) :
    (cellAt (mkGame rows cols).board i j = some BLACK ↔ (i + j) % 2 = 0) ∧
    ((i + j) % 2 ≠ 0 → cellAt (mkGame rows cols).board i j = some WHITE) ∧
    cellAt (mkGame rows cols).board i j ≠ some EMPTY := by
  have hb : (mkGame rows cols).board = init_board rows cols := rfl
  rw [hb, init_board_cell rows cols i j hi hj]
  by_cases hpar : (i + j) % 2 = 0 <;> simp [hpar]

theorem init_board_checkerboard_witness :
    2 ≤ 2 ∧ 2 ≤ 3 ∧ 1 < 2 ∧ 2 < 3 ∧
    ((cellAt (mkGame 2 3).board 1 2 = some BLACK ↔ (1 + 2) % 2 = 0) ∧
      ((1 + 2) % 2 ≠ 0 → cellAt (mkGame 2 3).board 1 2 = some WHITE) ∧
      cellAt (mkGame 2 3).board 1 2 ≠ some EMPTY) :=
  ⟨by decide, by decide, by decide, by decide,
    init_board_checkerboard (by decide) (by decide) (by decide) (by decide)⟩

theorem WF_cellAt {g : ClobberGame} (hwf : WF g) {a b : Nat}
    (ha : a < g.rows) (hb : b < g.cols) : ∃ q, cellAt g.board a b = some q := by
  obtain ⟨hlen, hrows⟩ := hwf
  have ha' : a < g.board.length := by omega
  have hrow : g.board[a]? = some g.board[a] := List.getElem?_eq_getElem ha'
  have hlenrow : g.board[a].length = g.cols :=
    hrows _ (List.getElem_mem ha')
  refine ⟨g.board[a][b], cellAt_eq_some.2 ⟨g.board[a], hrow, ?_⟩⟩
  exact List.getElem?_eq_getElem (by omega)

/-- C7: an in-bounds move whose source square does not hold the current
player's stone is rejected by `make_move` with the caught `ValueError`,
and the state (board, player, dimensions) is left completely unchanged. -/
theorem make_move_wrong_owner {g : ClobberGame} {a b a2 b2 : Nat}
    (hwf : WF g) (ha : a < g.rows) (hb : b < g.cols)
    (ha2 : a2 < g.rows) (hb2 : b2 < g.cols)
    (hown : cellAt g.board a b ≠ some g.current_player) :
    make_move g (((a : Int), (b : Int)), ((a2 : Int), (b2 : Int)))
      = (g, .valueError) := by
  obtain ⟨q, hq⟩ := WF_cellAt hwf ha hb
  have hne : q ≠ g.current_player := fun h => hown (h ▸ hq)
  unfold make_move
  dsimp only
  rw [pyGet2_of_cellAt hq]
  dsimp only
  rw [if_pos hne]

theorem make_move_wrong_owner_witness :
    WF (mkGame 2 2) ∧ 0 < (mkGame 2 2).rows ∧ 1 < (mkGame 2 2).cols ∧
    cellAt (mkGame 2 2).board 0 1 ≠ some (mkGame 2 2).current_player ∧
    make_move (mkGame 2 2) (((0 : Int), (1 : Int)), ((0 : Int), (0 : Int)))
      = (mkGame 2 2, .valueError) :=
  ⟨⟨by decide, by decide⟩, by decide, by decide, by decide,
    make_move_wrong_owner ⟨by decide, by decide⟩ (by decide) (by decide)
      (by decide) (by decide) (by decide)⟩

/-- C4 (refuted, code bug): a move with a negative coordinate, which lies
outside `[0, rows) × [0, cols)`, is not rejected: Python list indexing
wraps negative indices, so `make_move` mutates the board, switches the
player and reports no error. -/
theorem make_move_negative_index_mutates :
    make_move (mkGame 2 2) (((0 : Int), (0 : Int)), ((-1 : Int), (0 : Int)))
      = (⟨2, 2, [[EMPTY, WHITE], [BLACK, BLACK]], WHITE⟩, .ok) ∧
    (make_move (mkGame 2 2) (((0 : Int), (0 : Int)), ((-1 : Int), (0 : Int)))).1
      ≠ mkGame 2 2 := by
  decide

/-- C5: when `alpha_beta` is reached with positive depth, a non-terminal
position and an empty legal-move list for the current player, the loop
never runs and the initial accumulator `-inf` (maximizing) or `inf`
(minimizing) falls through unchanged. -/
theorem alpha_beta_empty_moves {g : ClobberGame} {d : Nat} {alpha beta : Score}
    {m : Bool} (hd : 0 < d) (ht : is_terminal g = false)
    (hmoves : get_legal_moves g g.current_player = []) :
    alpha_beta g d alpha beta m = if m then (⊥ : Score) else ⊤ := by
  obtain ⟨e, rfl⟩ : ∃ e, d = e + 1 := ⟨d - 1, by omega⟩
  cases m <;>
    · unfold alpha_beta
      rw [hmoves]
      simp [ht, abMaxLoop, abMinLoop]

theorem alpha_beta_empty_moves_witness :
    0 < 1 ∧
    is_terminal (⟨1, 2, [[BLACK, WHITE]], EMPTY⟩ : ClobberGame) = false ∧
    get_legal_moves (⟨1, 2, [[BLACK, WHITE]], EMPTY⟩ : ClobberGame)
      (⟨1, 2, [[BLACK, WHITE]], EMPTY⟩ : ClobberGame).current_player = [] ∧
    alpha_beta (⟨1, 2, [[BLACK, WHITE]], EMPTY⟩ : ClobberGame) 1 ⊥ ⊤ true
      = (if true then (⊥ : Score) else ⊤) :=
  ⟨by decide, by decide, by decide,
    alpha_beta_empty_moves (by decide) (by decide) (by decide)⟩

/-- C10: `ai_move` is a deterministic function of the board contents, the
current player, the dimensions and the depth: two states agreeing on
those fields yield the same chosen move (the imported `random` module is
never used). -/
theorem ai_move_deterministic {g1 g2 : ClobberGame} (d : Nat)
    (hr : g1.rows = g2.rows) (hc : g1.cols = g2.cols)
    (hb : g1.board = g2.board) (hp : g1.current_player = g2.current_player) :
    ai_move g1 d = ai_move g2 d := by
  cases g1
  cases g2
  cases hr
  cases hc
  cases hb
  cases hp
  rfl

theorem ai_move_deterministic_witness :
    (mkGame 2 2).rows = (⟨2, 2, [[BLACK, WHITE], [WHITE, BLACK]], BLACK⟩ : ClobberGame).rows ∧
    (mkGame 2 2).cols = (⟨2, 2, [[BLACK, WHITE], [WHITE, BLACK]], BLACK⟩ : ClobberGame).cols ∧
    (mkGame 2 2).board = (⟨2, 2, [[BLACK, WHITE], [WHITE, BLACK]], BLACK⟩ : ClobberGame).board ∧
    (mkGame 2 2).current_player
      = (⟨2, 2, [[BLACK, WHITE], [WHITE, BLACK]], BLACK⟩ : ClobberGame).current_player ∧
    ai_move (mkGame 2 2) 2
      = ai_move (⟨2, 2, [[BLACK, WHITE], [WHITE, BLACK]], BLACK⟩ : ClobberGame) 2 :=
  ⟨rfl, rfl, by decide, rfl,
    ai_move_deterministic 2 rfl rfl (by decide) rfl⟩

/-! ### Alpha-beta search equals unpruned minimax -/

theorem ABRel_refl (v alpha beta : Score) : ABRel v v alpha beta :=
  ⟨fun _ _ => rfl, fun _ => le_rfl, fun _ => le_rfl⟩

theorem foldl_max_le {w : Move → Score} :
    ∀ (L : List Move) (t : Score), t ≤ L.foldl (fun x mv => max x (w mv)) t := by
  intro L
  induction L with
  | nil => intro t; exact le_rfl
  | cons mv rest ih =>
    intro t
    simp only [List.foldl_cons]
    exact le_trans (le_max_left t (w mv)) (ih (max t (w mv)))

theorem foldl_min_ge {w : Move → Score} :
    ∀ (L : List Move) (t : Score), L.foldl (fun x mv => min x (w mv)) t ≤ t := by
  intro L
  induction L with
  | nil => intro t; exact le_rfl
  | cons mv rest ih =>
    intro t
    simp only [List.foldl_cons]
    exact le_trans (ih (min t (w mv))) (min_le_left t (w mv))

theorem abMaxLoop_rel (f : ClobberGame → Score → Score → Score) (g : ClobberGame)
    (beta : Score) (w : Move → Score) :
    ∀ (L : List Move) (acc t alpha0 : Score),
      (∀ mv ∈ L, ∀ a : Score, a < beta →
        ABRel (f (make_move g mv).1 a beta) (w mv) a beta) →
      alpha0 < beta →
      max alpha0 acc < beta →
      (acc ≤ alpha0 → t ≤ acc) →
      (alpha0 < acc → acc = t) →
      ABRel (abMaxLoop f g beta L acc (max alpha0 acc))
        (L.foldl (fun x mv => max x (w mv)) t) alpha0 beta := by
  intro L
  induction L with
  | nil =>
    intro acc t alpha0 _ _ hlt inv1 inv2
    refine ⟨fun h1 _ => inv2 h1, inv1, fun hb => ?_⟩
    exact absurd (lt_of_le_of_lt (le_trans hb (le_max_right alpha0 acc)) hlt)
      (lt_irrefl beta)
  | cons mv rest ih =>
    intro acc t alpha0 H halpha0 hlt inv1 inv2
    have hr := H mv (List.mem_cons_self mv rest) (max alpha0 acc) hlt
    simp only [abMaxLoop, List.foldl_cons]
    set v := f (make_move g mv).1 (max alpha0 acc) beta with hv
    have hassoc : max (max alpha0 acc) v = max alpha0 (max acc v) :=
      max_assoc alpha0 acc v
    by_cases hprune : beta ≤ max (max alpha0 acc) v
    · rw [if_pos hprune]
      have hbv : beta ≤ v := (le_max_iff.1 hprune).resolve_left (not_le.2 hlt)
      have hwv : v ≤ w mv := hr.2.2 hbv
      have hT : max t (w mv) ≤ rest.foldl (fun x mv => max x (w mv)) (max t (w mv)) :=
        foldl_max_le rest (max t (w mv))
      refine ⟨?_, ?_, ?_⟩
      · intro _ h2
        exact absurd (lt_of_le_of_lt (le_trans hbv (le_max_right acc v)) h2)
          (lt_irrefl beta)
      · intro hle
        have hva : v ≤ alpha0 := le_trans (le_max_right acc v) hle
        exact absurd (le_trans hbv hva) (not_le.2 halpha0)
      · intro _
        have hwT : w mv ≤ rest.foldl (fun x mv => max x (w mv)) (max t (w mv)) :=
          le_trans (le_max_right t (w mv)) hT
        have haccT : acc ≤ rest.foldl (fun x mv => max x (w mv)) (max t (w mv)) := by
          rcases le_or_lt acc alpha0 with hA | hA
          · exact le_trans hA (le_trans (le_of_lt halpha0) (le_trans hbv (le_trans hwv hwT)))
          · rw [inv2 hA]
            exact le_trans (le_max_left t (w mv)) hT
        exact max_le haccT (le_trans hwv hwT)
    · rw [if_neg hprune]
      have halpha' : max (max alpha0 acc) v < beta := not_le.1 hprune
      rw [hassoc]
      refine ih (max acc v) (max t (w mv)) alpha0
        (fun mv2 hm2 => H mv2 (List.mem_cons_of_mem _ hm2)) halpha0 ?_ ?_ ?_
      · rw [← hassoc]
        exact halpha'
      · intro hle
        have hva : v ≤ alpha0 := le_trans (le_max_right acc v) hle
        have haccle : acc ≤ alpha0 := le_trans (le_max_left acc v) hle
        have hw : w mv ≤ v := hr.2.1 (le_trans hva (le_max_left alpha0 acc))
        exact max_le (le_trans (inv1 haccle) (le_max_left acc v))
          (le_trans hw (le_max_right acc v))
      · intro hB
        rcases le_or_lt v (max alpha0 acc) with hvle | hvgt
        · have hw : w mv ≤ v := hr.2.1 hvle
          rcases le_max_iff.1 hvle with hv0 | hvacc
          · have hacc : alpha0 < acc := by
              rcases max_choice acc v with hh | hh
              · rw [hh] at hB
                exact hB
              · rw [hh] at hB
                exact absurd hB (not_lt.2 hv0)
            have hteq := inv2 hacc
            have haccv : max acc v = acc := max_eq_left (le_trans hv0 (le_of_lt hacc))
            have htw : max t (w mv) = t :=
              max_eq_left (le_trans hw (le_trans hv0 (le_of_lt (hteq ▸ hacc))))
            rw [haccv, htw]
            exact hteq
          · have haccv : max acc v = acc := max_eq_left hvacc
            have hacc : alpha0 < acc := by
              rw [haccv] at hB
              exact hB
            have hteq := inv2 hacc
            have htw : max t (w mv) = t :=
              max_eq_left (le_trans hw (le_trans hvacc (le_of_eq hteq)))
            rw [haccv, htw]
            exact hteq
        · have hvb : v < beta :=
            lt_of_le_of_lt (le_max_right (max alpha0 acc) v) halpha'
          have heqv := hr.1 hvgt hvb
          have haccv : max acc v = v :=
            max_eq_right (le_of_lt (lt_of_le_of_lt (le_max_right alpha0 acc) hvgt))
          have htv : t ≤ v := by
            rcases le_or_lt acc alpha0 with hA | hA
            · exact le_trans (inv1 hA)
                (le_trans hA (le_of_lt (lt_of_le_of_lt (le_max_left alpha0 acc) hvgt)))
            · rw [← inv2 hA]
              exact le_of_lt (lt_of_le_of_lt (le_max_right alpha0 acc) hvgt)
          have htw : max t (w mv) = v := by
            rw [← heqv]
            exact max_eq_right htv
          rw [haccv, htw]

theorem abMinLoop_rel (f : ClobberGame → Score → Score → Score) (g : ClobberGame)
    (alpha : Score) (w : Move → Score) :
    ∀ (L : List Move) (acc t beta0 : Score),
      (∀ mv ∈ L, ∀ b : Score, alpha < b →
        ABRel (f (make_move g mv).1 alpha b) (w mv) alpha b) →
      alpha < beta0 →
      alpha < min beta0 acc →
      (beta0 ≤ acc → acc ≤ t) →
      (acc < beta0 → acc = t) →
      ABRel (abMinLoop f g alpha L acc (min beta0 acc))
        (L.foldl (fun x mv => min x (w mv)) t) alpha beta0 := by
  intro L
  induction L with
  | nil =>
    intro acc t beta0 _ _ hlt inv1 inv2
    refine ⟨fun _ h2 => inv2 h2, fun hle => ?_, inv1⟩
    exact absurd (lt_of_lt_of_le hlt (le_trans (min_le_right beta0 acc) hle))
      (lt_irrefl alpha)
  | cons mv rest ih =>
    intro acc t beta0 H hbeta0 hlt inv1 inv2
    have hr := H mv (List.mem_cons_self mv rest) (min beta0 acc) hlt
    simp only [abMinLoop, List.foldl_cons]
    set v := f (make_move g mv).1 alpha (min beta0 acc) with hv
    have hassoc : min (min beta0 acc) v = min beta0 (min acc v) :=
      min_assoc beta0 acc v
    by_cases hprune : min (min beta0 acc) v ≤ alpha
    · rw [if_pos hprune]
      have hva : v ≤ alpha := (min_le_iff.1 hprune).resolve_left (not_le.2 hlt)
      have hwv : w mv ≤ v := hr.2.1 hva
      have hT : rest.foldl (fun x mv => min x (w mv)) (min t (w mv)) ≤ min t (w mv) :=
        foldl_min_ge rest (min t (w mv))
      refine ⟨?_, ?_, ?_⟩
      · intro h1 _
        exact absurd (lt_of_lt_of_le h1 (le_trans (min_le_right acc v) hva))
          (lt_irrefl alpha)
      · intro _
        have hwT : rest.foldl (fun x mv => min x (w mv)) (min t (w mv)) ≤ w mv :=
          le_trans hT (min_le_right t (w mv))
        have haccT : rest.foldl (fun x mv => min x (w mv)) (min t (w mv)) ≤ acc := by
          rcases le_or_lt beta0 acc with hA | hA
          · exact le_trans hwT (le_trans hwv (le_trans hva
              (le_trans (le_of_lt hbeta0) hA)))
          · rw [inv2 hA]
            exact le_trans hT (min_le_left t (w mv))
        exact le_min haccT (le_trans hwT hwv)
      · intro hge
        have hva' : min acc v ≤ alpha := le_trans (min_le_right acc v) hva
        exact absurd (le_trans hge hva') (not_le.2 hbeta0)
    · rw [if_neg hprune]
      have hbeta' : alpha < min (min beta0 acc) v := not_le.1 hprune
      rw [hassoc]
      refine ih (min acc v) (min t (w mv)) beta0
        (fun mv2 hm2 => H mv2 (List.mem_cons_of_mem _ hm2)) hbeta0 ?_ ?_ ?_
      · rw [← hassoc]
        exact hbeta'
      · intro hle
        have hbv : beta0 ≤ v := le_trans hle (min_le_right acc v)
        have hbacc : beta0 ≤ acc := le_trans hle (min_le_left acc v)
        have hw : v ≤ w mv := hr.2.2 (le_trans (min_le_left beta0 acc) hbv)
        exact le_min (le_trans (min_le_left acc v) (inv1 hbacc))
          (le_trans (min_le_right acc v) hw)
      · intro hB
        rcases le_or_lt (min beta0 acc) v with hvge | hvlt
        · have hw : v ≤ w mv := hr.2.2 hvge
          rcases min_le_iff.1 hvge with hv0 | hvacc
          · have hacc : acc < beta0 := by
              rcases min_choice acc v with hh | hh
              · rw [hh] at hB
                exact hB
              · rw [hh] at hB
                exact absurd hB (not_lt.2 hv0)
            have hteq := inv2 hacc
            have haccv : min acc v = acc := min_eq_left (le_trans (le_of_lt hacc) hv0)
            have htw : min t (w mv) = t :=
              min_eq_left (le_trans (le_of_lt (hteq ▸ hacc)) (le_trans hv0 hw))
            rw [haccv, htw]
            exact hteq
          · have haccv : min acc v = acc := min_eq_left hvacc
            have hacc : acc < beta0 := by
              rw [haccv] at hB
              exact hB
            have hteq := inv2 hacc
            have htw : min t (w mv) = t :=
              min_eq_left (le_trans (le_of_eq hteq.symm) (le_trans hvacc hw))
            rw [haccv, htw]
            exact hteq
        · have hav : alpha < v :=
            lt_of_lt_of_le hbeta' (min_le_right (min beta0 acc) v)
          have heqv := hr.1 hav hvlt
          have haccv : min acc v = v :=
            min_eq_right (le_of_lt (lt_of_lt_of_le hvlt (min_le_right beta0 acc)))
          have htv : v ≤ t := by
            rcases le_or_lt beta0 acc with hA | hA
            · exact le_trans (le_of_lt (lt_of_lt_of_le hvlt (min_le_right beta0 acc)))
                (inv1 hA)
            · rw [← inv2 hA]
              exact le_of_lt (lt_of_lt_of_le hvlt (min_le_right beta0 acc))
          have htw : min t (w mv) = v := by
            rw [← heqv]
            exact min_eq_right htv
          rw [haccv, htw]

theorem alpha_beta_succ_true (g : ClobberGame) (e : Nat) (alpha beta : Score)
    (ht : is_terminal g = false) :
    alpha_beta g (e + 1) alpha beta true
      = abMaxLoop (fun s a b => alpha_beta s e a b false) g beta
          (get_legal_moves g g.current_player) ⊥ alpha := by
  simp [alpha_beta, ht]

theorem alpha_beta_succ_false (g : ClobberGame) (e : Nat) (alpha beta : Score)
    (ht : is_terminal g = false) :
    alpha_beta g (e + 1) alpha beta false
      = abMinLoop (fun s a b => alpha_beta s e a b true) g alpha
          (get_legal_moves g g.current_player) ⊤ beta := by
  simp [alpha_beta, ht]

theorem minimax_succ_true (g : ClobberGame) (e : Nat)
    (ht : is_terminal g = false) :
    minimax g (e + 1) true
      = ((get_legal_moves g g.current_player).map
          (fun mv => minimax (make_move g mv).1 e false)).foldl max ⊥ := by
  simp [minimax, ht]

theorem minimax_succ_false (g : ClobberGame) (e : Nat)
    (ht : is_terminal g = false) :
    minimax g (e + 1) false
      = ((get_legal_moves g g.current_player).map
          (fun mv => minimax (make_move g mv).1 e true)).foldl min ⊤ := by
  simp [minimax, ht]

theorem alpha_beta_rel :
    ∀ (d : Nat) (g : ClobberGame) (alpha beta : Score) (m : Bool),
      alpha < beta → ABRel (alpha_beta g d alpha beta m) (minimax g d m) alpha beta := by
  intro d
  induction d with
  | zero =>
    intro g alpha beta m _
    exact ABRel_refl (Score.ofInt (evaluate g)) alpha beta
  | succ e ih =>
    intro g alpha beta m hab
    cases hterm : is_terminal g with
    | true =>
      have h1 : alpha_beta g (e + 1) alpha beta m = Score.ofInt (evaluate g) := by
        unfold alpha_beta
        rw [hterm]
        cases m <;> rfl
      have h2 : minimax g (e + 1) m = Score.ofInt (evaluate g) := by
        unfold minimax
        rw [hterm]
        cases m <;> rfl
      rw [h1, h2]
      exact ABRel_refl _ alpha beta
    | false =>
      cases m with
      | true =>
        rw [alpha_beta_succ_true g e alpha beta hterm, minimax_succ_true g e hterm,
          List.foldl_map]
        have hmax : max alpha (⊥ : Score) = alpha := max_eq_left bot_le
        have h := abMaxLoop_rel (fun s a b => alpha_beta s e a b false) g beta
          (fun mv => minimax (make_move g mv).1 e false)
          (get_legal_moves g g.current_player) ⊥ ⊥ alpha
          (fun mv _ a ha => ih (make_move g mv).1 a beta false ha)
          hab (by rw [hmax]; exact hab) (fun _ => le_rfl) (fun _ => rfl)
        rw [hmax] at h
        exact h
      | false =>
        rw [alpha_beta_succ_false g e alpha beta hterm, minimax_succ_false g e hterm,
          List.foldl_map]
        have hmin : min beta (⊤ : Score) = beta := min_eq_left le_top
        have h := abMinLoop_rel (fun s a b => alpha_beta s e a b true) g alpha
          (fun mv => minimax (make_move g mv).1 e true)
          (get_legal_moves g g.current_player) ⊤ ⊤ beta
          (fun mv _ b hb => ih (make_move g mv).1 alpha b true hb)
          hab (by rw [hmin]; exact hab) (fun _ => le_rfl) (fun _ => rfl)
        rw [hmin] at h
        exact h

/-- C2: with the full window `(-inf, inf)`, `alpha_beta` computes exactly
the value of the exhaustive unpruned minimax search of the same depth on
the same state (for every state, every depth and both roles, hence in
particular for 2×3 boards and depth ≤ 4). -/
theorem alpha_beta_eq_minimax (g : ClobberGame) (d : Nat) (m : Bool) :
    alpha_beta g d ⊥ ⊤ m = minimax g d m := by
  obtain ⟨h1, h2, h3⟩ := alpha_beta_rel d g ⊥ ⊤ m bot_lt_top
  by_cases hbot : alpha_beta g d ⊥ ⊤ m = ⊥
  · have hv := h2 (le_of_eq hbot)
    rw [hbot] at hv ⊢
    exact (le_bot_iff.1 hv).symm
  · by_cases htop : alpha_beta g d ⊥ ⊤ m = ⊤
    · have hv := h3 htop.ge
      rw [htop] at hv ⊢
      exact (top_le_iff.1 hv).symm
    · exact h1 (bot_lt_iff_ne_bot.2 hbot) (lt_top_iff_ne_top.2 htop)

/-- C6: `get_legal_moves` is sound and complete for the specification's
notion of a legal move, and enumerates row-major over source cells with
direction order up, down, left, right. -/
theorem get_legal_moves_correct {g : ClobberGame} {p : Cell} (hp : isPlayer p) :
    (∀ mv : Move, mv ∈ get_legal_moves g p ↔ isLegalMove g p mv) ∧
    List.Pairwise moveLt (get_legal_moves g p) :=
  ⟨fun _ => get_legal_moves_iff_spec hp, get_legal_moves_pairwise g p⟩

theorem get_legal_moves_correct_witness :
    isPlayer BLACK ∧
    ((((0 : Int), (0 : Int)), ((1 : Int), (0 : Int))) ∈ get_legal_moves (mkGame 2 2) BLACK ↔
      isLegalMove (mkGame 2 2) BLACK (((0 : Int), (0 : Int)), ((1 : Int), (0 : Int)))) ∧
    List.Pairwise moveLt (get_legal_moves (mkGame 2 2) BLACK) :=
  ⟨Or.inl rfl,
    (get_legal_moves_correct (Or.inl rfl)).1 (((0 : Int), (0 : Int)), ((1 : Int), (0 : Int))),
    (get_legal_moves_correct (Or.inl rfl)).2⟩

/-! ### No-move symmetry and the AI move selector -/

theorem opponent_opponent {p : Cell} (hp : isPlayer p) : opponent (opponent p) = p := by
  rcases hp with rfl | rfl <;> rfl

theorem isPlayer_opponent {p : Cell} (hp : isPlayer p) : isPlayer (opponent p) := by
  rcases hp with rfl | rfl
  · exact Or.inr rfl
  · exact Or.inl rfl

/-- Adjacency is symmetric, so reversing a legal move gives the opponent
a legal move. -/
theorem legal_move_reverse {g : ClobberGame} {p : Cell} (hp : isPlayer p)
    {mv : Move} (h : mv ∈ get_legal_moves g p) :
    (mv.2, mv.1) ∈ get_legal_moves g (opponent p) := by
  obtain ⟨a, b, a2, b2, hmv, ha, hb, ha2, hb2, hc, hc2, hadj⟩ :=
    (get_legal_moves_iff_spec hp).1 h
  subst hmv
  refine (get_legal_moves_iff_spec (isPlayer_opponent hp)).2
    ⟨a2, b2, a, b, rfl, ha2, hb2, ha, hb, hc2, ?_, ?_⟩
  · rw [opponent_opponent hp]
    exact hc
  · omega

theorem empty_opponent {g : ClobberGame} {p : Cell} (hp : isPlayer p)
    (h : get_legal_moves g p = []) : get_legal_moves g (opponent p) = [] := by
  by_contra hne
  obtain ⟨mv, hmv⟩ := List.exists_mem_of_ne_nil _ hne
  have hrev := legal_move_reverse (isPlayer_opponent hp) hmv
  rw [opponent_opponent hp, h] at hrev
  exact List.not_mem_nil _ hrev

/-- For an actual player to move, the terminal test is equivalent to the
current player having no legal move (a Black-White adjacent pair gives
both sides a move). -/
theorem is_terminal_iff_empty {g : ClobberGame} (hcur : isPlayer g.current_player) :
    is_terminal g = true ↔ get_legal_moves g g.current_player = [] := by
  unfold is_terminal
  rw [Bool.and_eq_true, List.isEmpty_iff, List.isEmpty_iff]
  constructor
  · rintro ⟨hB, hW⟩
    rcases hcur with h | h <;> rw [h] <;> assumption
  · intro h
    rcases hcur with hcur' | hcur' <;> rw [hcur'] at h
    · exact ⟨h, empty_opponent (Or.inl rfl) h⟩
    · exact ⟨empty_opponent (Or.inr rfl) h, h⟩

theorem isPlayer_make_move {g : ClobberGame} (h : isPlayer g.current_player)
    (mv : Move) : isPlayer (make_move g mv).1.current_player := by
  rcases mv with ⟨⟨i, j⟩, ni, nj⟩
  unfold make_move
  dsimp only
  split
  · exact h
  · split
    · exact h
    · split
      · exact h
      · split
        · exact h
        · exact isPlayer_switch _

theorem IsFin_max {x y : Score} (hx : Score.IsFin x) (hy : Score.IsFin y) :
    Score.IsFin (max x y) := by
  rcases max_choice x y with h | h <;> rw [h] <;> assumption

theorem IsFin_min {x y : Score} (hx : Score.IsFin x) (hy : Score.IsFin y) :
    Score.IsFin (min x y) := by
  rcases min_choice x y with h | h <;> rw [h] <;> assumption

theorem abMaxLoop_isFin (f : ClobberGame → Score → Score → Score) (g : ClobberGame)
    (beta : Score) :
    ∀ (L : List Move) (acc alpha : Score),
      (∀ mv ∈ L, ∀ a b : Score, Score.IsFin (f (make_move g mv).1 a b)) →
      (Score.IsFin acc ∨ (acc = ⊥ ∧ L ≠ [])) →
      Score.IsFin (abMaxLoop f g beta L acc alpha) := by
  intro L
  induction L with
  | nil =>
    intro acc alpha _ hacc
    rcases hacc with h | ⟨-, hne⟩
    · exact h
    · exact absurd rfl hne
  | cons mv rest ih =>
    intro acc alpha H hacc
    simp only [abMaxLoop]
    have hvfin := H mv (List.mem_cons_self mv rest) alpha beta
    have haccfin : Score.IsFin (max acc (f (make_move g mv).1 alpha beta)) := by
      rcases hacc with hf | ⟨hb, -⟩
      · exact IsFin_max hf hvfin
      · rw [hb, max_eq_right bot_le]
        exact hvfin
    split
    · exact haccfin
    · exact ih _ _ (fun mv2 hm2 => H mv2 (List.mem_cons_of_mem _ hm2)) (Or.inl haccfin)

theorem abMinLoop_isFin (f : ClobberGame → Score → Score → Score) (g : ClobberGame)
    (alpha : Score) :
    ∀ (L : List Move) (acc beta : Score),
      (∀ mv ∈ L, ∀ a b : Score, Score.IsFin (f (make_move g mv).1 a b)) →
      (Score.IsFin acc ∨ (acc = ⊤ ∧ L ≠ [])) →
      Score.IsFin (abMinLoop f g alpha L acc beta) := by
  intro L
  induction L with
  | nil =>
    intro acc beta _ hacc
    rcases hacc with h | ⟨-, hne⟩
    · exact h
    · exact absurd rfl hne
  | cons mv rest ih =>
    intro acc beta H hacc
    simp only [abMinLoop]
    have hvfin := H mv (List.mem_cons_self mv rest) alpha beta
    have haccfin : Score.IsFin (min acc (f (make_move g mv).1 alpha beta)) := by
      rcases hacc with hf | ⟨hb, -⟩
      · exact IsFin_min hf hvfin
      · rw [hb, min_eq_right le_top]
        exact hvfin
    split
    · exact haccfin
    · exact ih _ _ (fun mv2 hm2 => H mv2 (List.mem_cons_of_mem _ hm2)) (Or.inl haccfin)

/-- For an actual player the search value is always a plain integer: at a
non-terminal node the current player has at least one move (no-move
symmetry), so the `±inf` accumulators never escape. -/
theorem alpha_beta_isFin :
    ∀ (d : Nat) (g : ClobberGame), isPlayer g.current_player →
      ∀ (alpha beta : Score) (m : Bool), Score.IsFin (alpha_beta g d alpha beta m) := by
  intro d
  induction d with
  | zero =>
    intro g _ alpha beta m
    exact ⟨evaluate g, rfl⟩
  | succ e ih =>
    intro g hcur alpha beta m
    cases hterm : is_terminal g with
    | true =>
      have heq : alpha_beta g (e + 1) alpha beta m = Score.ofInt (evaluate g) := by
        unfold alpha_beta
        rw [hterm]
        cases m <;> rfl
      exact ⟨evaluate g, heq⟩
    | false =>
      have hne : get_legal_moves g g.current_player ≠ [] := by
        intro h
        have := (is_terminal_iff_empty hcur).2 h
        rw [hterm] at this
        cases this
      cases m with
      | true =>
        rw [alpha_beta_succ_true g e alpha beta hterm]
        exact abMaxLoop_isFin _ g beta _ ⊥ alpha
          (fun mv _ a b => ih (make_move g mv).1 (isPlayer_make_move hcur mv) a b false)
          (Or.inr ⟨rfl, hne⟩)
      | false =>
        rw [alpha_beta_succ_false g e alpha beta hterm]
        exact abMinLoop_isFin _ g alpha _ ⊤ beta
          (fun mv _ a b => ih (make_move g mv).1 (isPlayer_make_move hcur mv) a b true)
          (Or.inr ⟨rfl, hne⟩)

theorem aiStep_fst (g : ClobberGame) (depth : Nat) (best : Option Move × Score)
    (mv : Move) :
    (aiStep g depth best mv).1 = best.1 ∨ (aiStep g depth best mv).1 = some mv := by
  unfold aiStep
  dsimp only
  split
  · exact Or.inr rfl
  · split
    · exact Or.inr rfl
    · exact Or.inl rfl

theorem ai_fold_pick (g : ClobberGame) (depth : Nat) :
    ∀ (L : List Move) (best : Option Move × Score),
      (L.foldl (aiStep g depth) best).1 = best.1 ∨
        ∃ mv ∈ L, (L.foldl (aiStep g depth) best).1 = some mv := by
  intro L
  induction L with
  | nil =>
    intro best
    exact Or.inl rfl
  | cons mv rest ih =>
    intro best
    simp only [List.foldl_cons]
    rcases ih (aiStep g depth best mv) with h | ⟨mv2, hm2, h⟩
    · rcases aiStep_fst g depth best mv with h2 | h2
      · exact Or.inl (h.trans h2)
      · exact Or.inr ⟨mv, List.mem_cons_self mv rest, h.trans h2⟩
    · exact Or.inr ⟨mv2, List.mem_cons_of_mem _ hm2, h⟩

theorem ai_fold_isSome (g : ClobberGame) (depth : Nat) :
    ∀ (L : List Move) (best : Option Move × Score), best.1 ≠ none →
      (L.foldl (aiStep g depth) best).1 ≠ none := by
  intro L
  induction L with
  | nil =>
    intro best h
    exact h
  | cons mv rest ih =>
    intro best h
    simp only [List.foldl_cons]
    refine ih (aiStep g depth best mv) ?_
    rcases aiStep_fst g depth best mv with h2 | h2 <;> rw [h2]
    · exact h
    · exact Option.some_ne_none mv

theorem bot_lt_ofInt (z : Int) : (⊥ : Score) < Score.ofInt z :=
  WithBot.bot_lt_coe _

theorem ofInt_lt_top (z : Int) : Score.ofInt z < ⊤ :=
  WithBot.coe_lt_coe.2 (WithTop.coe_lt_top z)

/-- The very first loop iteration always selects its move: the searched
value is a plain integer, which strictly beats the initial `-inf`
(BLACK) or `inf` (WHITE). -/
theorem aiStep_first {g : ClobberGame} {depth : Nat}
    (hcur : isPlayer g.current_player) (mv : Move) :
    (aiStep g depth
      ((none : Option Move), if g.current_player = BLACK then (⊥ : Score) else ⊤)
      mv).1 = some mv := by
  obtain ⟨z, hz⟩ := alpha_beta_isFin (depth - 1) (make_move g mv).1
    (isPlayer_make_move hcur mv) ⊥ ⊤ false
  unfold aiStep
  dsimp only
  rw [hz]
  rcases hcur with hcur' | hcur' <;> rw [hcur']
  · have hite : (if (BLACK : Cell) = BLACK then (⊥ : Score) else ⊤) = ⊥ := if_pos rfl
    rw [hite, if_pos ⟨rfl, bot_lt_ofInt z⟩]
  · rw [if_neg (by rintro ⟨h, -⟩; cases h)]
    have hite : (if (WHITE : Cell) = BLACK then (⊥ : Score) else ⊤) = ⊤ :=
      if_neg (by decide)
    rw [hite, if_pos ⟨rfl, ofInt_lt_top z⟩]

/-- C3: `ai_move` returns `none` exactly when the current player has no
legal move, and any move it returns is one of the current player's legal
moves.  (The first scored move always replaces the `±inf` initial best
value, because search values are plain integers.) -/
theorem ai_move_none_iff {g : ClobberGame} {depth : Nat}
    (hcur : isPlayer g.current_player) (hd : 1 ≤ depth) :
    (ai_move g depth = none ↔ get_legal_moves g g.current_player = []) ∧
    ∀ mv : Move, ai_move g depth = some mv →
      mv ∈ get_legal_moves g g.current_player := by
  refine ⟨⟨?_, ?_⟩, ?_⟩
  · intro h
    by_contra hne
    obtain ⟨mv0, rest, hL⟩ := List.exists_cons_of_ne_nil hne
    unfold ai_move at h
    rw [hL] at h
    simp only [List.foldl_cons] at h
    refine ai_fold_isSome g depth rest _ ?_ h
    rw [aiStep_first hcur mv0]
    exact Option.some_ne_none mv0
  · intro h
    unfold ai_move
    rw [h]
    rfl
  · intro mv h
    unfold ai_move at h
    rcases ai_fold_pick g depth (get_legal_moves g g.current_player)
      ((none : Option Move), if g.current_player = BLACK then (⊥ : Score) else ⊤)
      with h2 | ⟨mv2, hm2, h2⟩
    · rw [h2] at h
      exact Option.noConfusion h
    · rw [h2] at h
      cases h
      exact hm2

theorem ai_move_none_iff_witness :
    isPlayer (mkGame 2 2).current_player ∧ 1 ≤ 1 ∧
    (ai_move (mkGame 2 2) 1 = none ↔
      get_legal_moves (mkGame 2 2) (mkGame 2 2).current_player = []) :=
  ⟨Or.inl rfl, le_refl 1, (ai_move_none_iff (Or.inl rfl) (le_refl 1)).1⟩
